import Mathlib

/-!
Verification of the coordination core of `mpi_trap2.c` (parallel trapezoidal
rule): the hand-rolled binomial broadcast in `Get_input`, the linear
gather-and-sum reduction in `main`, the per-rank partition arithmetic, and the
serial `Trap` quadrature routine.

Modelling conventions:
* C `double` values are modelled as exact rational numbers (`ℚ`): every operation the program performs on them is a field operation, so the idealized (roundoff-free) semantics of the C doubles is a field, and `ℚ` keeps every definition computable; `int` as `ℤ` (or `ℕ`
  for ranks and group sizes, which are nonnegative throughout).
* The distributed state of the broadcast is a map `ℕ → Option Config`:
  `some cfg` means the rank holds the configuration record, `none` models the
  indeterminate (uninitialized) contents of `a`, `b`, `n` at a rank that has
  not received them.  One loop iteration is modelled synchronously: every
  receiver reads its source's value as it was at the start of the iteration
  (a rendezvous delivers the sender's pre-send value, and a sender never
  changes its own copy during the iteration).  This is faithful exactly when
  every executed receive has a matching send in the same iteration; the
  boolean `stepMatched` records that side condition, which real MPI needs in
  order not to block forever.
* `count = ceil(log(comm_sz)/log(2))` (lines 112-113) is computed in C with
  double-precision `log`; it is modelled under exact real-number semantics of
  `log`, i.e. as the least `c` with `comm_sz ≤ 2 ^ c`.
-/

/-- The integration configuration record that `Get_input` fills in:
left endpoint `a`, right endpoint `b` (C doubles) and trapezoid count `n`
(C int). -/
structure Config where
  a : ℚ
  b : ℚ
  n : ℤ

/-- The integrand, hardwired in the source: `f(x) = x*x`. -/
def f (x : ℚ) : ℚ := x * x

/-- Ceiling of the base-2 logarithm, as the number of exponents `c ≤ n` with
`2 ^ c < n`.  This models `count = ceil(log(comm_sz)/log(2))` from lines
112-113 of `Get_input` under exact real semantics of `log`: it is the least
`c` with `n ≤ 2 ^ c` (proved below), and it is computable by evaluation. -/
def clog2 (n : ℕ) : ℕ :=
  ((Finset.range (n + 1)).filter (fun c => 2 ^ c < n)).card

/-- Sender test of the broadcast loop (line 131):
`my_rank%divisor==0 && (my_rank+core_difference < comm_sz)`. -/
def isSender (comm_sz divisor core_difference my_rank : ℕ) : Bool :=
  my_rank % divisor == 0 && decide (my_rank + core_difference < comm_sz)

/-- Receiver test of the broadcast loop (line 137): the rank failed the sender
test and satisfies `my_rank%core_difference==0`. -/
def isReceiver (comm_sz divisor core_difference my_rank : ℕ) : Bool :=
  !(isSender comm_sz divisor core_difference my_rank) &&
    my_rank % core_difference == 0

/-- One iteration of the broadcast loop, acting on the joint state of all
ranks: each receiver overwrites its record with the value rank
`my_rank - core_difference` held at the start of the iteration; everyone else
keeps its value. -/
def bstep (comm_sz divisor core_difference : ℕ) (st : ℕ → Option Config) :
    ℕ → Option Config :=
  fun my_rank =>
    if decide (my_rank < comm_sz) &&
        isReceiver comm_sz divisor core_difference my_rank then
      st (my_rank - core_difference)
    else st my_rank

/-- The broadcast loop of `Get_input` (lines 130-146): runs `fuel` iterations,
halving `divisor` and `core_difference` after each. -/
def bcastLoop (comm_sz : ℕ) :
    ℕ → ℕ → (ℕ → Option Config) → ℕ → (ℕ → Option Config)
  | _, _, st, 0 => st
  | divisor, core_difference, st, fuel + 1 =>
      bcastLoop comm_sz (divisor / 2) (core_difference / 2)
        (bstep comm_sz divisor core_difference st) fuel

/-- Initial distributed state: rank 0 holds the record read from the input
file, every other rank holds indeterminate values. -/
def initState (cfg : Config) : ℕ → Option Config :=
  fun my_rank => if my_rank = 0 then some cfg else none

/-- The whole of `Get_input` after the root has read the file: `count`
iterations of the broadcast loop starting from `divisor = 2^count`,
`core_difference = divisor/2` (lines 112-116, 130-146).  The result maps each
rank to the record it holds at the end. -/
def Get_input (comm_sz : ℕ) (cfg : Config) : ℕ → Option Config :=
  bcastLoop comm_sz (2 ^ clog2 comm_sz) (2 ^ clog2 comm_sz / 2)
    (initState cfg) (clog2 comm_sz)

/-- The sequence of `(divisor, core_difference)` pairs used by the successive
iterations of the broadcast loop. -/
def schedAux : ℕ → ℕ → ℕ → List (ℕ × ℕ)
  | _, _, 0 => []
  | divisor, core_difference, fuel + 1 =>
      (divisor, core_difference) ::
        schedAux (divisor / 2) (core_difference / 2) fuel

/-- The `(divisor, core_difference)` pairs of the broadcast loop of
`Get_input` for a given group size. -/
def bcastSchedule (comm_sz : ℕ) : List (ℕ × ℕ) :=
  schedAux (2 ^ clog2 comm_sz) (2 ^ clog2 comm_sz / 2) (clog2 comm_sz)

/-- A broadcast iteration is matched when every rank that executes the
receive branch has a source rank that executes the send branch towards it in
the same iteration.  Real MPI blocks forever on an unmatched receive. -/
def stepMatched (comm_sz divisor core_difference : ℕ) : Bool :=
  (List.range comm_sz).all fun my_rank =>
    !(isReceiver comm_sz divisor core_difference my_rank) ||
      (decide (core_difference ≤ my_rank) &&
        isSender comm_sz divisor core_difference (my_rank - core_difference))

/-- All iterations of the broadcast loop are matched. -/
def loopMatched (comm_sz : ℕ) : ℕ → ℕ → ℕ → Bool
  | _, _, 0 => true
  | divisor, core_difference, fuel + 1 =>
      stepMatched comm_sz divisor core_difference &&
        loopMatched comm_sz (divisor / 2) (core_difference / 2) fuel

/-- Every receive executed during `Get_input`'s broadcast has a matching
send: the condition for the run not to block. -/
def GetInputMatched (comm_sz : ℕ) : Bool :=
  loopMatched comm_sz (2 ^ clog2 comm_sz) (2 ^ clog2 comm_sz / 2)
    (clog2 comm_sz)

/-- The reduction loop at the root (lines 76-81 of `main`): the accumulator
`total_int` starts at the root's own `local_int`; `remaining` iterations are
left, the next one receiving from rank `source` and adding its value. -/
def reduceLoop {R : Type} [Add R] (locals : ℕ → R) : R → ℕ → ℕ → R
  | total_int, _, 0 => total_int
  | total_int, source, remaining + 1 =>
      reduceLoop locals (total_int + locals source) (source + 1) remaining

/-- The whole reduction at rank 0: `total_int = local_int`, then
`for (source = 1; source < comm_sz; source++)` receive and add.  `locals`
maps each rank to the `local_int` value that rank sends. -/
def reduceAtRoot (comm_sz : ℕ) (locals : ℕ → ℚ) : ℚ :=
  reduceLoop locals (locals 0) 1 (comm_sz - 1)

/-- The partition arithmetic of `main` (lines 61-68), a pure function of the
rank, the group size and the broadcast config.  C `int` division truncates
towards zero, i.e. `Int.tdiv`; the product `my_rank*local_n` is computed in
`int` before being widened to `double`.  Returns
`(local_a, local_b, local_n)`. -/
def mainPartition (my_rank comm_sz : ℕ) (a b : ℚ) (n : ℤ) : ℚ × ℚ × ℤ :=
  let h : ℚ := (b - a) / (n : ℚ)
  let local_n : ℤ := n.tdiv comm_sz
  let local_a : ℚ := a + (((my_rank : ℤ) * local_n : ℤ) : ℚ) * h
  let local_b : ℚ := local_a + (local_n : ℚ) * h
  (local_a, local_b, local_n)

/-- The serial trapezoidal estimate (lines 162-178): start from
`(f(left)+f(right))/2`, add `f(left + i*base_len)` for `i = 1 .. trap_count-1`
(the loop body at index `i` of `List.range` handles `i+1`), then scale by
`base_len`. -/
def Trap (left_endpt right_endpt : ℚ) (trap_count : ℤ) (base_len : ℚ) : ℚ :=
  let estimate0 : ℚ := (f left_endpt + f right_endpt) / 2
  let estimate : ℚ :=
    (List.range (trap_count - 1).toNat).foldl
      (fun est i => est + f (left_endpt + ((i + 1 : ℕ) : ℚ) * base_len))
      estimate0
  estimate * base_len

/-- The arguments at which `Trap` evaluates the integrand `f`, in call order:
both endpoints (line 170) and one interior point per loop iteration
(lines 171-174). -/
def trapEvalPoints (left_endpt right_endpt : ℚ) (trap_count : ℤ)
    (base_len : ℚ) : List ℚ :=
  left_endpt :: right_endpt ::
    (List.range (trap_count - 1).toNat).map
      (fun i => left_endpt + ((i + 1 : ℕ) : ℚ) * base_len)

/-- Root input phase of `Get_input` (lines 119-127), with the outcome of
`fopen`/`fscanf` made explicit: `some cfg` if the file was present and the
three fields parsed, `none` otherwise.  The source checks neither the
`fopen` result nor the `fscanf` return value, so on failure the root simply
keeps indeterminate stack contents (`junk`) and execution falls through to
the broadcast; there is no abort path. -/
def rootInputPhase (parsed : Option Config) (junk : Config) :
    ℕ → Option Config :=
  initState (parsed.getD junk)

/-- `Get_input` with the parse outcome at the root made explicit: the input
phase followed unconditionally by the broadcast loop. -/
def GetInputWithParse (comm_sz : ℕ) (parsed : Option Config) (junk : Config) :
    ℕ → Option Config :=
  bcastLoop comm_sz (2 ^ clog2 comm_sz) (2 ^ clog2 comm_sz / 2)
    (rootInputPhase parsed junk) (clog2 comm_sz)

/-- The print statements of the program, as abstract events:
`greet` and `inputEcho` from `Get_input` (lines 120, 125), `resultHeader` and
`resultValue` from `main` (lines 86-88). -/
inductive OutputEvent where
  | greet (my_rank : ℕ)
  | inputEcho (a b : ℚ) (n : ℤ)
  | resultHeader (n : ℤ)
  | resultValue (a b total : ℚ)

/-- Output produced by a rank inside `Get_input`: both `printf` calls sit in
the `if (my_rank == 0)` block of lines 119-127. -/
def getInputOutputs (my_rank : ℕ) (a b : ℚ) (n : ℤ) : List OutputEvent :=
  if my_rank = 0 then [.greet my_rank, .inputEcho a b n] else []

/-- Output produced by a rank in `main`: both `printf` calls sit in the
`if (my_rank == 0)` block of lines 85-89. -/
def mainOutputs (my_rank : ℕ) (a b : ℚ) (n : ℤ) (total : ℚ) :
    List OutputEvent :=
  if my_rank = 0 then [.resultHeader n, .resultValue a b total] else []

/-- All output a rank produces over a whole successful run. -/
def programOutputs (my_rank : ℕ) (a b : ℚ) (n : ℤ) (total : ℚ) :
    List OutputEvent :=
  getInputOutputs my_rank a b n ++ mainOutputs my_rank a b n total

/-! ### Helper lemmas -/

theorem clog2_eq_clog (n : ℕ) : clog2 n = Nat.clog 2 n := by
  have hmem : ∀ c, 2 ^ c < n ↔ c < Nat.clog 2 n := by
    intro c
    rw [← not_le, ← not_le, Nat.le_pow_iff_clog_le one_lt_two]
  have hself : Nat.clog 2 n ≤ n :=
    (Nat.le_pow_iff_clog_le one_lt_two).mp (Nat.lt_two_pow n).le
  have hset : (Finset.range (n + 1)).filter (fun c => 2 ^ c < n) =
      Finset.range (Nat.clog 2 n) := by
    ext c
    simp only [Finset.mem_filter, Finset.mem_range, hmem]
    omega
  rw [clog2, hset, Finset.card_range]

theorem le_pow_clog2 (n : ℕ) : n ≤ 2 ^ clog2 n := by
  rw [clog2_eq_clog]
  exact Nat.le_pow_clog one_lt_two n

theorem clog2_le_of_le_pow {n c : ℕ} (h : n ≤ 2 ^ c) : clog2 n ≤ c := by
  rw [clog2_eq_clog]
  exact (Nat.le_pow_iff_clog_le one_lt_two).mp h

theorem pow_pred_clog2_lt {n : ℕ} (hn : 2 ≤ n) : 2 ^ (clog2 n - 1) < n := by
  rw [clog2_eq_clog]
  exact Nat.pow_pred_clog_lt_self one_lt_two hn

theorem clog2_pos {n : ℕ} (hn : 2 ≤ n) : 1 ≤ clog2 n := by
  by_contra h
  have h0 : clog2 n = 0 := by omega
  have := le_pow_clog2 n
  rw [h0] at this
  omega

theorem pow_succ_div_two (k : ℕ) : 2 ^ (k + 1) / 2 = 2 ^ k := by
  rw [pow_succ]
  exact Nat.mul_div_cancel _ two_pos

theorem schedAux_pow : ∀ (fuel k : ℕ), fuel ≤ k →
    schedAux (2 ^ k) (2 ^ k / 2) fuel =
      (List.range fuel).map (fun i => (2 ^ (k - i), 2 ^ (k - i) / 2)) := by
  intro fuel
  induction fuel with
  | zero => intro k _; rfl
  | succ m ih =>
    intro k hk
    cases k with
    | zero => omega
    | succ j =>
      show (2 ^ (j + 1), 2 ^ (j + 1) / 2) ::
          schedAux (2 ^ (j + 1) / 2) (2 ^ (j + 1) / 2 / 2) m = _
      rw [pow_succ_div_two, ih j (by omega),
        List.range_succ_eq_map, List.map_cons, List.map_map]
      have hfun : ((fun i => (2 ^ (j + 1 - i), 2 ^ (j + 1 - i) / 2)) ∘ Nat.succ) =
          (fun i => (2 ^ (j - i), 2 ^ (j - i) / 2)) := by
        funext i
        simp [Nat.succ_sub_succ]
      rw [hfun]
      simp only [Nat.sub_zero, pow_succ_div_two]

theorem bcastSchedule_eq (comm_sz : ℕ) :
    bcastSchedule comm_sz = (List.range (clog2 comm_sz)).map
      (fun i => (2 ^ (clog2 comm_sz - i), 2 ^ (clog2 comm_sz - i) / 2)) :=
  schedAux_pow (clog2 comm_sz) (clog2 comm_sz) le_rfl

theorem bcastLoop_rank0 (comm_sz : ℕ) : ∀ (fuel k : ℕ) (st : ℕ → Option Config),
    fuel ≤ k → 2 ^ (k - 1) < comm_sz →
    bcastLoop comm_sz (2 ^ k) (2 ^ k / 2) st fuel 0 = st 0 := by
  intro fuel
  induction fuel with
  | zero => intro k st _ _; rfl
  | succ m ih =>
    intro k st hk hlt
    cases k with
    | zero => omega
    | succ j =>
      have hsend : isSender comm_sz (2 ^ (j + 1)) (2 ^ j) 0 = true := by
        simp only [isSender, Nat.zero_mod, Nat.zero_add]
        simpa using hlt
      have hkeep : bstep comm_sz (2 ^ (j + 1)) (2 ^ j) st 0 = st 0 := by
        rw [bstep, isReceiver, hsend]
        simp
      show bcastLoop comm_sz (2 ^ (j + 1) / 2) (2 ^ (j + 1) / 2 / 2)
          (bstep comm_sz (2 ^ (j + 1)) (2 ^ (j + 1) / 2) st) m 0 = st 0
      rw [pow_succ_div_two,
        ih j _ (by omega)
          (lt_of_le_of_lt (Nat.pow_le_pow_right two_pos (by omega)) hlt),
        hkeep]

theorem reduceLoop_eq_foldl (locals : ℕ → ℚ) :
    ∀ (remaining : ℕ) (total : ℚ) (source : ℕ),
      reduceLoop locals total source remaining =
        ((List.range remaining).map (fun i => locals (source + i))).foldl
          (· + ·) total := by
  intro remaining
  induction remaining with
  | zero => intro t s; rfl
  | succ m ih =>
    intro t s
    show reduceLoop locals (t + locals s) (s + 1) m = _
    rw [ih, List.range_succ_eq_map, List.map_cons, List.map_map,
      List.foldl_cons]
    have hfun : ((fun i => locals (s + i)) ∘ Nat.succ) =
        (fun i => locals (s + 1 + i)) := by
      funext i
      have : s + Nat.succ i = s + 1 + i := by omega
      simp [Function.comp, this]
    rw [hfun]
    simp

theorem foldl_add_eq_sum (g : ℕ → ℚ) :
    ∀ (m : ℕ) (e : ℚ),
      (List.range m).foldl (fun est i => est + g i) e =
        e + ∑ i ∈ Finset.range m, g i := by
  intro m
  induction m with
  | zero => intro e; simp
  | succ k ih =>
    intro e
    rw [List.range_succ, List.foldl_append, ih, List.foldl_cons,
      List.foldl_nil, Finset.sum_range_succ, add_assoc]

/-! ### Claim theorems -/

/-- C1: the broadcast of `Get_input` does not deliver the root's config to
every rank for every group size.  At `N = 3` — the claim's own scenario —
rank 2 executes the receive branch a second time in the final iteration
(divisor 2, core_difference 1), addressed to rank 1, which is itself a
receiver and never sends in that iteration.  In the synchronous model rank 2
thereby ends without the record (it overwrites its already-correct copy with
rank 1's pre-iteration placeholder); in real MPI the unmatched receive
blocks forever, as `GetInputMatched 3 = false` records. -/
theorem getInput_n3_broadcast_fails (cfg : Config) :
    Get_input 3 cfg 2 = none ∧ GetInputMatched 3 = false :=
  ⟨rfl, by decide⟩

/-- C2 (amended): with `divisor = 2 * core_difference` and
`core_difference ≥ 1`, the receive branch is executed exactly by the ranks
with `rank % core_difference = 0` that fail the sender test; each such rank
with `rank % divisor ≠ 0` and `rank < comm_sz` is targeted by exactly the one
sender `rank - core_difference`; no two senders target the same rank; and a
receive-branch rank with `rank % divisor = 0` (possible when
`rank + core_difference ≥ comm_sz`) is targeted by no sender at all. -/
theorem receive_branch_exact (comm_sz divisor core_difference k : ℕ)
    (hd : divisor = 2 * core_difference) (hh : 1 ≤ core_difference) :
    (isReceiver comm_sz divisor core_difference k = true ↔
      (k % core_difference = 0 ∧
        ¬(k % divisor = 0 ∧ k + core_difference < comm_sz)))
    ∧ (k % core_difference = 0 → k % divisor ≠ 0 → k < comm_sz →
        core_difference ≤ k ∧
          isSender comm_sz divisor core_difference (k - core_difference) = true)
    ∧ (∀ j j', isSender comm_sz divisor core_difference j = true →
        isSender comm_sz divisor core_difference j' = true →
        j + core_difference = j' + core_difference → j = j')
    ∧ (k % divisor = 0 → ∀ j, isSender comm_sz divisor core_difference j = true →
        j + core_difference ≠ k) := by
  refine ⟨?_, ?_, ?_, ?_⟩
  · simp only [isReceiver, isSender, Bool.and_eq_true, Bool.not_eq_true',
      Bool.and_eq_false_iff, beq_iff_eq, beq_eq_false_iff_ne, ne_eq,
      decide_eq_true_eq, decide_eq_false_iff_not]
    tauto
  · intro hmod hnd hk
    obtain ⟨q, hq⟩ := Nat.dvd_of_mod_eq_zero hmod
    rcases Nat.even_or_odd q with ⟨t, ht⟩ | ⟨t, ht⟩
    · exfalso
      apply hnd
      have hkt : k = divisor * t := by rw [hq, ht, hd]; ring
      rw [hkt]
      exact Nat.mul_mod_right _ _
    · have hkt : k = divisor * t + core_difference := by rw [hq, ht, hd]; ring
      have hle : core_difference ≤ k := by omega
      refine ⟨hle, ?_⟩
      have hsub : k - core_difference = divisor * t := by omega
      simp only [isSender, hsub, Nat.mul_mod_right, beq_self_eq_true,
        Bool.true_and, decide_eq_true_eq]
      omega
  · intro j j' _ _ h
    omega
  · intro hk0 j hj hjk
    have hj0 : j % divisor = 0 := by
      simp only [isSender, Bool.and_eq_true, beq_iff_eq] at hj
      exact hj.1
    obtain ⟨u, hu⟩ := Nat.dvd_of_mod_eq_zero hj0
    have hklt : core_difference < divisor := by omega
    have : k % divisor = core_difference := by
      rw [← hjk, hu, Nat.mul_comm, Nat.add_comm, Nat.add_mul_mod_self_right,
        Nat.mod_eq_of_lt hklt]
    omega

/-- C2 counterexample: in the actual `N = 3` broadcast the second iteration
runs with divisor 2 and core_difference 1, and rank 2 executes the receive
branch even though `2 % 2 = 0`, so the receiver set is not the set of ranks
with `rank % core_difference = 0` and `rank % divisor ≠ 0`; moreover no
sender targets rank 2 in that iteration. -/
theorem receive_branch_claim_cex :
    bcastSchedule 3 = [(4, 2), (2, 1)] ∧
    isReceiver 3 2 1 2 = true ∧ 2 % 2 = 0 ∧
    (∀ j, j < 3 → ¬(isSender 3 2 1 j = true ∧ j + 1 = 2)) := by
  decide

theorem receive_branch_exact_witness :
    isReceiver 3 2 1 2 = true ↔ (2 % 1 = 0 ∧ ¬(2 % 2 = 0 ∧ 2 + 1 < 3)) :=
  (receive_branch_exact 3 2 1 2 rfl le_rfl).1

/-- C3: the reduction at rank 0 starts from the root's own local estimate and
adds the others in strictly increasing rank order, so the returned total is
exactly the left-to-right sum
`(((local_0 + local_1) + local_2) + ...) + local_(N-1)`. -/
theorem reduce_left_to_right (comm_sz : ℕ) (locals : ℕ → ℚ) :
    reduceAtRoot comm_sz locals =
      ((List.range (comm_sz - 1)).map (fun i => locals (i + 1))).foldl
        (· + ·) (locals 0) := by
  rw [reduceAtRoot, reduceLoop_eq_foldl]
  have hfun : (fun i => locals (1 + i)) = (fun i => locals (i + 1)) := by
    funext i
    rw [Nat.add_comm]
  rw [hfun]

/-- C4: the partition arithmetic of `main` computes
`local_n = n / comm_sz` by truncating integer division,
`h = (b - a) / n`, `local_a = a + my_rank * local_n * h` and
`local_b = local_a + local_n * h`, as a pure function of
`(my_rank, comm_sz, a, b, n)` — identical at every rank given an identical
config. -/
theorem partition_formulas (my_rank comm_sz : ℕ) (a b : ℚ) (n : ℤ) :
    mainPartition my_rank comm_sz a b n =
      (a + (my_rank : ℚ) * ((n.tdiv (comm_sz : ℤ) : ℤ) : ℚ) * ((b - a) / (n : ℚ)),
       a + (my_rank : ℚ) * ((n.tdiv (comm_sz : ℤ) : ℤ) : ℚ) * ((b - a) / (n : ℚ))
         + ((n.tdiv (comm_sz : ℤ) : ℤ) : ℚ) * ((b - a) / (n : ℚ)),
       n.tdiv (comm_sz : ℤ)) := by
  simp only [mainPartition, Prod.mk.injEq]
  refine ⟨?_, ?_, trivial⟩
  · push_cast
    ring
  · push_cast
    ring

/-- C5 (amended): `Trap` returns
`base_len * ((f(left)+f(right))/2 + sum of f(left + i*base_len), i = 1 .. trap_count-1)`
for all arguments, and evaluates the integrand at exactly `trap_count + 1`
points whenever `trap_count ≥ 1`.  (For `trap_count ≤ 0` it still evaluates
the two endpoints — 2 points, not `trap_count + 1` — which is where the
original claim fails.) -/
theorem Trap_closed_form (left_endpt right_endpt : ℚ) (trap_count : ℤ)
    (base_len : ℚ) :
    Trap left_endpt right_endpt trap_count base_len =
      base_len * ((f left_endpt + f right_endpt) / 2 +
        ∑ i ∈ Finset.Icc 1 (trap_count - 1).toNat,
          f (left_endpt + (i : ℚ) * base_len))
    ∧ (1 ≤ trap_count →
        ((trapEvalPoints left_endpt right_endpt trap_count base_len).length : ℤ)
          = trap_count + 1) := by
  constructor
  · show ((List.range (trap_count - 1).toNat).foldl
        (fun est i => est + f (left_endpt + ((i + 1 : ℕ) : ℚ) * base_len))
        ((f left_endpt + f right_endpt) / 2)) * base_len = _
    rw [foldl_add_eq_sum, ← Nat.Ico_succ_right, Finset.sum_Ico_eq_sum_range]
    simp only [Nat.succ_sub_one]
    have hsum : ∑ i ∈ Finset.range (trap_count - 1).toNat,
        f (left_endpt + ((1 + i : ℕ) : ℚ) * base_len) =
        ∑ i ∈ Finset.range (trap_count - 1).toNat,
        f (left_endpt + ((i + 1 : ℕ) : ℚ) * base_len) := by
      refine Finset.sum_congr rfl fun i _ => ?_
      rw [Nat.add_comm]
    rw [hsum]
    ring
  · intro hc
    have hlen : (trapEvalPoints left_endpt right_endpt trap_count base_len).length
        = (trap_count - 1).toNat + 2 := by
      simp [trapEvalPoints]
    rw [hlen]
    push_cast
    omega

/-- C5 counterexample: with `trap_count = 0` and distinct endpoints `0`, `1`,
`Trap` evaluates `f` at 2 points, not at `trap_count + 1 = 1` points. -/
theorem trap_eval_count_cex :
    (trapEvalPoints 0 1 0 1).length = 2 ∧ (2 : ℤ) ≠ 0 + 1 := by
  exact ⟨rfl, by decide⟩

theorem Trap_closed_form_witness :
    ((trapEvalPoints 0 1 2 1).length : ℤ) = 2 + 1 :=
  (Trap_closed_form 0 1 2 1).2 (by decide)

/-- C6: the broadcast loop executes exactly `ceil(log2(N))` iterations: the
schedule length equals `clog2 N`, which is the least `c` with `N ≤ 2 ^ c`
(the ceiling of the base-2 logarithm), and is 0 when `N = 1`.  The C source
computes this count as `ceil(log(N)/log(2))` in doubles; that computation is
modelled with exact real semantics of `log`. -/
theorem broadcast_step_count (comm_sz : ℕ) (_hN : 1 ≤ comm_sz) :
    (bcastSchedule comm_sz).length = clog2 comm_sz
    ∧ comm_sz ≤ 2 ^ clog2 comm_sz
    ∧ (∀ c, comm_sz ≤ 2 ^ c → clog2 comm_sz ≤ c)
    ∧ (comm_sz = 1 → (bcastSchedule comm_sz).length = 0) := by
  have hlen : (bcastSchedule comm_sz).length = clog2 comm_sz := by
    rw [bcastSchedule_eq, List.length_map, List.length_range]
  refine ⟨hlen, le_pow_clog2 _, fun c hc => clog2_le_of_le_pow hc, fun h1 => ?_⟩
  rw [hlen, h1]
  decide

theorem broadcast_step_count_witness : (bcastSchedule 1).length = 0 :=
  (broadcast_step_count 1 le_rfl).2.2.2 rfl

/-- C7: in every iteration of the broadcast loop the moduli are safe:
`divisor ≥ 2` and `core_difference ≥ 1`, with `core_difference = 1` exactly
on the final iteration; for `N = 1` the loop body never runs, so neither
`my_rank % divisor` nor `my_rank % core_difference` ever divides by zero. -/
theorem broadcast_modulus_safety (comm_sz : ℕ) (_hN : 1 ≤ comm_sz) :
    (∀ p ∈ bcastSchedule comm_sz, 2 ≤ p.1 ∧ 1 ≤ p.2)
    ∧ (comm_sz = 1 → bcastSchedule comm_sz = [])
    ∧ (∀ i, ∀ hi : i < (bcastSchedule comm_sz).length,
        (((bcastSchedule comm_sz).get ⟨i, hi⟩).2 = 1 ↔
          i + 1 = (bcastSchedule comm_sz).length)) := by
  have hlen : (bcastSchedule comm_sz).length = clog2 comm_sz := by
    rw [bcastSchedule_eq, List.length_map, List.length_range]
  refine ⟨?_, ?_, ?_⟩
  · intro p hp
    rw [bcastSchedule_eq] at hp
    obtain ⟨i, hi, rfl⟩ := List.mem_map.mp hp
    have hi' : i < clog2 comm_sz := List.mem_range.mp hi
    obtain ⟨m, hm⟩ : ∃ m, clog2 comm_sz - i = m + 1 :=
      ⟨clog2 comm_sz - i - 1, by omega⟩
    constructor
    · show 2 ≤ 2 ^ (clog2 comm_sz - i)
      calc 2 = 2 ^ 1 := rfl
        _ ≤ 2 ^ (clog2 comm_sz - i) := Nat.pow_le_pow_right two_pos (by omega)
    · show 1 ≤ 2 ^ (clog2 comm_sz - i) / 2
      rw [hm, pow_succ_div_two]
      exact Nat.pos_pow_of_pos m two_pos
  · intro h1
    rw [h1]
    decide
  · intro i hi
    have hi' : i < clog2 comm_sz := hlen ▸ hi
    have hval : ((bcastSchedule comm_sz).get ⟨i, hi⟩).2 =
        2 ^ (clog2 comm_sz - i) / 2 := by
      rw [List.get_eq_getElem]
      simp only [bcastSchedule_eq, List.getElem_map, List.getElem_range]
    rw [hval, hlen]
    obtain ⟨m, hm⟩ : ∃ m, clog2 comm_sz - i = m + 1 :=
      ⟨clog2 comm_sz - i - 1, by omega⟩
    rw [hm, pow_succ_div_two]
    constructor
    · intro h1
      have hm0 : m = 0 := by
        by_contra hne
        have := (Nat.one_lt_pow_iff hne).mpr (by norm_num : (1:ℕ) < 2)
        omega
      omega
    · intro h1
      have hm0 : m = 0 := by omega
      rw [hm0, pow_zero]

theorem broadcast_modulus_safety_witness : bcastSchedule 1 = [] :=
  (broadcast_modulus_safety 1 le_rfl).2.1 rfl

/-- C8: contrary to the claim, a parse failure at the root does not abort
the run before the broadcast: `Get_input` checks neither the `fopen` result
nor the `fscanf` return value and has no error path, so with an unparsed
(indeterminate) config the broadcast phase still executes in full, exactly
as it would with a valid one. -/
theorem getInput_no_abort_on_bad_input (comm_sz : ℕ) (junk : Config) :
    GetInputWithParse comm_sz none junk = Get_input comm_sz junk := rfl

/-- C9: every print statement of the program sits inside an
`if (my_rank == 0)` block, so on a successful run a non-root rank produces
no output at all. -/
theorem nonroot_silent (my_rank : ℕ) (a b : ℚ) (n : ℤ) (total : ℚ)
    (h : my_rank ≠ 0) :
    programOutputs my_rank a b n total = [] := by
  simp [programOutputs, getInputOutputs, mainOutputs, h]

theorem nonroot_silent_witness : programOutputs 1 0 1 4 0 = [] :=
  nonroot_silent 1 0 1 4 0 (by decide)

/-- C10: for every group size `N ≥ 2`, rank 0 passes the sender test in
every iteration of the broadcast loop (`0 % divisor = 0` and
`0 + core_difference < N`), hence never takes the receive branch, and the
`a`, `b`, `n` values rank 0 read from the input file survive the whole
broadcast phase unchanged. -/
theorem rank0_always_sender (comm_sz : ℕ) (cfg : Config) (hN : 2 ≤ comm_sz) :
    (∀ p ∈ bcastSchedule comm_sz,
      isSender comm_sz p.1 p.2 0 = true ∧ isReceiver comm_sz p.1 p.2 0 = false)
    ∧ Get_input comm_sz cfg 0 = some cfg := by
  constructor
  · intro p hp
    rw [bcastSchedule_eq] at hp
    obtain ⟨i, hi, rfl⟩ := List.mem_map.mp hp
    have hi' : i < clog2 comm_sz := List.mem_range.mp hi
    obtain ⟨m, hm⟩ : ∃ m, clog2 comm_sz - i = m + 1 :=
      ⟨clog2 comm_sz - i - 1, by omega⟩
    have hhalf : (2:ℕ) ^ (clog2 comm_sz - i) / 2 = 2 ^ m := by
      rw [hm, pow_succ_div_two]
    have hbound : (2:ℕ) ^ m < comm_sz := by
      have h1 : (2:ℕ) ^ m ≤ 2 ^ (clog2 comm_sz - 1) :=
        Nat.pow_le_pow_right two_pos (by omega)
      exact lt_of_le_of_lt h1 (pow_pred_clog2_lt hN)
    have hsend : isSender comm_sz (2 ^ (clog2 comm_sz - i))
        (2 ^ (clog2 comm_sz - i) / 2) 0 = true := by
      simp only [isSender, Nat.zero_mod, Nat.zero_add, hhalf,
        beq_self_eq_true, Bool.true_and, decide_eq_true_eq]
      exact hbound
    refine ⟨hsend, ?_⟩
    rw [isReceiver, hsend]
    rfl
  · exact (bcastLoop_rank0 comm_sz (clog2 comm_sz) (clog2 comm_sz)
      (initState cfg) le_rfl (pow_pred_clog2_lt hN)).trans rfl

theorem rank0_always_sender_witness :
    Get_input 3 ⟨0, 1, 4⟩ 0 = some ⟨0, 1, 4⟩ :=
  (rank0_always_sender 3 ⟨0, 1, 4⟩ (by decide)).2

/-- For contrast with the `N = 3` failure: with a power-of-two group size
(here `N = 4`) every iteration of the broadcast is matched and every rank
ends holding the root's record, and the smallest sizes beyond a power of two
(`N = 3`, `N = 5`) are unmatched. -/
theorem getInput_pow2_n4_correct (cfg : Config) :
    (Get_input 4 cfg 0 = some cfg ∧ Get_input 4 cfg 1 = some cfg ∧
      Get_input 4 cfg 2 = some cfg ∧ Get_input 4 cfg 3 = some cfg)
    ∧ GetInputMatched 4 = true ∧ GetInputMatched 5 = false :=
  ⟨⟨rfl, rfl, rfl, rfl⟩, by decide, by decide⟩
